import Mathlib

/-!
# Verification of the CSV document view core

Shallow embedding of the CSV view of this repository (`src/csv-view.ts`,
`src/main.ts`, and the two combined view variants in `src/unnamed/part_000`),
together with the papaparse codec calls the view makes:
`Papa.parse(text, { header: true, skipEmptyLines: true })` and
`Papa.unparse(data)` on an array of row objects.  The codec is embedded from
papaparse 5.x semantics with the comma delimiter (the library's delimiter
auto-detection is modelled as the default comma, and the record separator as
any of CRLF, CR or LF) and standard double-quote escaping.
-/

/-- A JavaScript value stored in a parsed row object: papaparse stores each
cell as a string, except the `__parsed_extra` key which holds the array of
extra cells of a record longer than the header. -/
inductive CellVal where
  | str : String → CellVal
  | arr : List String → CellVal
  deriving DecidableEq, Repr

/-- A JavaScript object modelled as an insertion-ordered association list
(papaparse row objects; key order is property-insertion order, which is what
`Object.keys` and hence `Papa.unparse` observe). -/
abbrev JsObj := List (String × CellVal)

/-- JS property read `o[k]` on a row object; `none` models `undefined`. -/
def objGet (o : JsObj) (k : String) : Option CellVal :=
  (o.find? (fun p => p.1 == k)).map (fun p => p.2)

/-- JS property write `o[k] = v`: overwrites in place when the key exists,
otherwise appends the key in insertion order. -/
def objSet : JsObj → String → CellVal → JsObj
  | [], k, v => [(k, v)]
  | (k₀, v₀) :: rest, k, v =>
    if k₀ = k then (k, v) :: rest else (k₀, v₀) :: objSet rest k v

/-- papaparse's key collecting the extra cells of an over-long record. -/
def extraKey : String := "__parsed_extra"

/-- `row.__parsed_extra = row.__parsed_extra || []; row.__parsed_extra.push(c)`. -/
def pushExtra (o : JsObj) (c : String) : JsObj :=
  match objGet o extraKey with
  | some (.arr l) => objSet o extraKey (.arr (l ++ [c]))
  | _ => objSet o extraKey (.arr [c])

/-- papaparse's CSV tokenizer with the comma delimiter, one character per
step: fields are separated by `,`, records by a newline (CRLF, CR or LF); a
field beginning with `"` is quoted (a doubled `""` inside is a literal quote,
the closing quote returns to unquoted scanning, and delimiters and newlines
inside quotes are literal); a quote not at the start of a field is a literal
character.  The final field and record are always emitted.  Arguments:
remaining input; `inQ` (inside a quoted field); `qPend` (the previous
character was a quote inside a quoted field, so a following quote is an
escaped literal quote and anything else means the quote closed the field);
`crPend` (the previous character was a record-breaking CR, so a following LF
is consumed as part of the same CRLF break); current field; current record;
finished records. -/
def scan : List Char → Bool → Bool → Bool → List Char → List String →
    List (List String) → List (List String)
  | [], _, _, _, fld, rec, acc => acc ++ [rec ++ [String.mk fld]]
  | c :: rest, inQ, qPend, crPend, fld, rec, acc =>
    if inQ then
      if c = '"' then scan rest false true false fld rec acc
      else scan rest true false false (fld ++ [c]) rec acc
    else if qPend = true ∧ c = '"' then scan rest true false false (fld ++ ['"']) rec acc
    else if crPend = true ∧ c = '\n' then scan rest false false false fld rec acc
    else if c = '"' then
      if fld = [] then scan rest true false false [] rec acc
      else scan rest false false false (fld ++ [c]) rec acc
    else if c = ',' then scan rest false false false [] (rec ++ [String.mk fld]) acc
    else if c = '\r' then scan rest false false true [] [] (acc ++ [rec ++ [String.mk fld]])
    else if c = '\n' then scan rest false false false [] [] (acc ++ [rec ++ [String.mk fld]])
    else scan rest false false false (fld ++ [c]) rec acc

/-- The records of a text under `skipEmptyLines: true`: records that are a
single empty field (empty lines) are dropped. -/
def recordsOf (text : String) : List (List String) :=
  (scan text.toList false false false [] [] []).filter (fun r => decide (r ≠ [""]))

/-- papaparse header-mode row processing: cell `j` is assigned to header
field `j`; cells beyond the header length are pushed onto `__parsed_extra`.
Mismatched records are retained, not dropped (papaparse records a soft
`FieldMismatch` error for them, which the view ignores). -/
def processRowAux (fields : List String) : List String → Nat → JsObj → JsObj
  | [], _, acc => acc
  | c :: cells, j, acc =>
    match fields[j]? with
    | some f => processRowAux fields cells (j + 1) (objSet acc f (.str c))
    | none => processRowAux fields cells (j + 1) (pushExtra acc c)

/-- A parsed record as a row object. -/
def processRow (fields : List String) (cells : List String) : JsObj :=
  processRowAux fields cells 0 []

/-- Whether a stored cell value is a plain string (as opposed to the
`__parsed_extra` array). -/
def isStrVal : CellVal → Bool
  | .str _ => true
  | .arr _ => false

/-- A record zipped with the header as a row object of string cells: the row
object papaparse produces for a record whose cell count matches a
duplicate-free header. -/
def zipRow (fields cells : List String) : JsObj :=
  (fields.zip cells).map (fun p => (p.1, CellVal.str p.2))

/-- The parts of a papaparse result the view uses: `meta.fields` and `data`. -/
structure ParseResult where
  fields : Option (List String)
  data : List JsObj
  deriving DecidableEq, Repr

namespace Papa

/-- `Papa.parse(text, { header: true, skipEmptyLines: true })`: the first
retained record is the header (`meta.fields`), each later record becomes a
row object.  An input with no retained records yields no fields and no data. -/
def parse (text : String) : ParseResult :=
  match recordsOf text with
  | [] => ⟨none, []⟩
  | f :: rest => ⟨some f, rest.map (processRow f)⟩

/-- Double every `"` (papaparse's escaped-quote substitution). -/
def escList : List Char → List Char
  | [] => []
  | c :: rest => if c = '"' then '"' :: '"' :: escList rest else c :: escList rest

/-- papaparse `safe`: a serialized value is quote-wrapped when it contains a
quote, the delimiter, CR, LF or a BOM, or starts or ends with a space. -/
def quoteNeeded (s : List Char) : Bool :=
  decide ('"' ∈ s) || decide (',' ∈ s) || decide ('\r' ∈ s) || decide ('\n' ∈ s) ||
    decide (Char.ofNat 65279 ∈ s) || decide (s.head? = some ' ') ||
    decide (s.getLast? = some ' ')

/-- One serialized cell: quote-wrapped with doubled quotes when needed. -/
def safeField (s : List Char) : List Char :=
  if quoteNeeded s then '"' :: (escList s ++ ['"']) else s

/-- JS `String(value)` for a stored cell value: strings unchanged, arrays
joined with commas (`Array.prototype.toString`). -/
def strValOf : CellVal → String
  | .str s => s
  | .arr l => String.mk (List.intercalate [','] (l.map String.toList))

/-- A serialized cell value: a missing key (`undefined`) becomes empty. -/
def safeVal (v : Option CellVal) : List Char :=
  match v with
  | none => []
  | some v => safeField (strValOf v).toList

/-- One serialized record. -/
def lineOfRec (r : List String) : List Char :=
  List.intercalate [','] (r.map (fun s => safeField s.toList))

/-- The cell strings papaparse would serialize for row `r` in key order. -/
def rowStrings (r : JsObj) : List String := r.map (fun p => strValOf p.2)

/-- `Papa.unparse(data)` on an array of row objects: the columns are the keys
of the FIRST object; it emits a header record and then one record per row,
joined by CRLF with no trailing newline; keys missing from a row serialize as
the empty string.  An empty data array serializes to the empty string (in
particular the header is not preserved for rowless data). -/
def unparse (data : List JsObj) : String :=
  match data with
  | [] => ""
  | r₀ :: _ =>
    let fields := r₀.map Prod.fst
    String.mk (List.intercalate ['\r', '\n']
      (lineOfRec fields ::
        data.map (fun r => List.intercalate [','] (fields.map (fun f => safeVal (objGet r f))))))

end Papa

/-- The view state the claims depend on: `csvData` is unset until the first
`setViewData`/`renderTable`, after which it holds the papaparse result. -/
structure ViewState where
  csvData : Option ParseResult
  deriving DecidableEq, Repr

/-- A freshly constructed view: no document loaded yet. -/
def freshView : ViewState := ⟨none⟩

/-- `setViewData(data, clear)` calls `renderTable(data)`, which re-parses the
text and replaces `this.csvData` wholesale. -/
def setViewData (_st : ViewState) (data : String) : ViewState :=
  ⟨some (Papa.parse data)⟩

/-- `getViewData()`: unparse the parsed data if present, else empty string
(the parsed `data` array is always a truthy JS array once `csvData` is set). -/
def getViewData (st : ViewState) : String :=
  match st.csvData with
  | some r => Papa.unparse r.data
  | none => ""

/-- JS strict inequality `current !== newValue` where `current` is the stored
cell value (possibly `undefined` or an array) and `newValue` is a string. -/
def jsStrictNe (current : Option CellVal) (newValue : String) : Bool :=
  match current with
  | some (.str s) => s != newValue
  | _ => true

/-- Outcome of the data-cell blur handler: the (possibly) updated data array,
whether `requestSave` was called, and whether the markdown projection was
re-rendered. -/
structure CommitResult where
  data : List JsObj
  saved : Bool
  rerendered : Bool
  deriving DecidableEq, Repr

/-- The data-cell blur handler: if the captured row index still has an entry
and the stored value differs from the buffer, overwrite the cell in place,
re-render the markdown projection and call `requestSave`; otherwise do
nothing (no mutation, no save, no re-render, no exception). -/
def commitCellEdit (data : List JsObj) (rowIndex : Nat) (field : String)
    (newValue : String) : CommitResult :=
  match data[rowIndex]? with
  | some row =>
    if jsStrictNe (objGet row field) newValue then
      ⟨data.set rowIndex (objSet row field (.str newValue)), true, true⟩
    else ⟨data, false, false⟩
  | none => ⟨data, false, false⟩

/-- Errors of the spec's Table-Model API (§4.2 / §7). -/
inductive TableModelError where
  | outOfRange
  | unknownField
  deriving DecidableEq, Repr

/-- Spec-side definition, stated from the spec's words for comparison with the
source's cell-update path `commitCellEdit`: `setCellValue(rowIndex, field,
value)` fails with `OutOfRangeError` if `rowIndex` is invalid and
`UnknownFieldError` if `field` is not a known column; otherwise it overwrites
the cell in place. -/
def setCellValueSpec (fields : List String) (data : List JsObj)
    (rowIndex : Nat) (field value : String) : Except TableModelError (List JsObj) :=
  match data[rowIndex]? with
  | none => .error .outOfRange
  | some row =>
    if field ∈ fields then
      .ok (data.set rowIndex (objSet row field (.str value)))
    else .error .unknownField

instance {ε α : Type} [DecidableEq ε] [DecidableEq α] : DecidableEq (Except ε α) := fun a b =>
  match a, b with
  | .error e₁, .error e₂ =>
    if h : e₁ = e₂ then .isTrue (by rw [h])
    else .isFalse (by intro hc; cases hc; exact h rfl)
  | .error _, .ok _ => .isFalse (by intro hc; cases hc)
  | .ok _, .error _ => .isFalse (by intro hc; cases hc)
  | .ok a₁, .ok a₂ =>
    if h : a₁ = a₂ then .isTrue (by rw [h])
    else .isFalse (by intro hc; cases hc; exact h rfl)

/-- JS `String.prototype.trim`. -/
def jsTrim (s : String) : String :=
  String.mk (((s.toList.dropWhile Char.isWhitespace).reverse.dropWhile
    Char.isWhitespace).reverse)

/-- `isRowFilledOut` from the source.  Its doc comment says "Check if all
cells in the row have content", but the loop sets `hasContent` and breaks as
soon as ONE cell has non-blank content and returns that flag — it tests ANY,
not ALL.  Embedded faithfully as written. -/
def isRowFilledOut (cells : List String) : Bool :=
  cells.any (fun c => decide (jsTrim c ≠ ""))

/-- `newData` built by the draft-row blur handler:
`fields.forEach((field, idx) => newData[field] = cells[idx].textContent || "")`. -/
def buildRowDataAux : List String → Nat → List String → JsObj → JsObj
  | [], _, _, acc => acc
  | f :: fs, idx, cells, acc =>
    buildRowDataAux fs (idx + 1) cells (objSet acc f (.str (cells[idx]?.getD "")))

/-- The draft row's field values as a fresh row object. -/
def buildRowData (fields cells : List String) : JsObj :=
  buildRowDataAux fields 0 cells []

/-- The draft-row blur handler's effect on the table data: `newValue` is the
blurred cell's text and `cells` the texts of all the row's cells.  If the
blurred cell is non-blank and `isRowFilledOut` holds, the new row object is
`unshift`ed onto the data array (position 0) and `requestSave` is called;
otherwise nothing happens.  Returns the data array and the save flag. -/
def draftRowBlur (fields : List String) (cells : List String)
    (newValue : String) (data : List JsObj) : List JsObj × Bool :=
  if jsTrim newValue ≠ "" then
    if isRowFilledOut cells = false then (data, false)
    else (buildRowData fields cells :: data, true)
  else (data, false)

/-- A rendered grid (tbody) row: a `new-row`-classed draft row holding its
cell texts, or an ordinary data row. -/
inductive GridRow where
  | draftRow : List String → GridRow
  | dataRow : JsObj → GridRow
  deriving DecidableEq, Repr

/-- A fresh, all-blank draft row (one cell per field). -/
def blankDraft (fields : List String) : GridRow :=
  .draftRow (fields.map (fun _ => ""))

/-- Whether a tbody row carries the `new-row` class. -/
def isDraft : GridRow → Bool
  | .draftRow _ => true
  | .dataRow _ => false

/-- The tbody built by `renderTable` when `meta.fields` is present: the draft
row is created first, then one row per parsed data row. -/
def initialGrid (fields : List String) (data : List JsObj) : List GridRow :=
  blankDraft fields :: data.map .dataRow

/-- `addNewEmptyRow`: `tbody.createEl("tr", { cls: "new-row" })` APPENDS the
fresh draft row at the end of the tbody, i.e. below all existing rows. -/
def addNewEmptyRow (grid : List GridRow) (fields : List String) : List GridRow :=
  grid ++ [blankDraft fields]

/-- The draft-cell focus handler: if the focused row is the only `new-row` in
the tbody, spawn another empty draft row (appended at the bottom). -/
def draftFocusHandler (grid : List GridRow) (fields : List String) : List GridRow :=
  if grid.countP isDraft = 1 then addNewEmptyRow grid fields else grid

/-- A draft commit's effect on the grid: the committing draft row — the one
`renderTable` created, i.e. the first tbody row — has `new-row` removed and
is rebuilt in place as a data row. -/
def commitDraftInGrid (grid : List GridRow) (obj : JsObj) : List GridRow :=
  match grid with
  | .draftRow _ :: rest => .dataRow obj :: rest
  | g => g

/-- The drag-move handler of `setupColumnResize`: `newWidth = startWidth +
(pageX - startX)`; only when `newWidth >= 50` is the width applied — to the
header cell and uniformly to the cell at the column's index in every table
row; otherwise the handler does nothing and all widths stay as they were.
`colWidths` lists the current widths of the column's cells (header first). -/
def resizeMove (startWidth startX pageX : Int) (colWidths : List Int) : List Int :=
  let newWidth := startWidth + (pageX - startX)
  if 50 ≤ newWidth then colWidths.map (fun _ => newWidth) else colWidths

/-! ## Helper lemmas -/

theorem strMk_toList (s : String) : String.mk s.toList = s := rfl

theorem intercalate_cons₂ {α : Type} (sep x y : List α) (t : List (List α)) :
    List.intercalate sep (x :: y :: t) = x ++ sep ++ List.intercalate sep (y :: t) := by
  simp [List.intercalate]

theorem intercalate_single {α : Type} (sep x : List α) :
    List.intercalate sep [x] = x := by
  simp [List.intercalate]

theorem objSet_of_not_mem (o : JsObj) (k : String) (v : CellVal)
    (h : k ∉ o.map Prod.fst) : objSet o k v = o ++ [(k, v)] := by
  induction o with
  | nil => rfl
  | cons p rest ih =>
    obtain ⟨k₀, v₀⟩ := p
    simp only [List.map_cons, List.mem_cons, not_or] at h
    simp only [objSet]
    rw [if_neg (fun hh => h.1 hh.symm)]
    rw [ih h.2]
    simp

theorem objGet_cons_self (k : String) (v : CellVal) (rest : JsObj) :
    objGet ((k, v) :: rest) k = some v := by
  simp [objGet, List.find?_cons_of_pos]

theorem objGet_cons_ne (k₀ k : String) (v₀ : CellVal) (rest : JsObj) (h : k₀ ≠ k) :
    objGet ((k₀, v₀) :: rest) k = objGet rest k := by
  simp only [objGet]
  rw [List.find?_cons_of_neg]
  simp [h]

/-- Reading back every key of a row object, in key order, yields its values. -/
theorem map_objGet_self (r : JsObj) (hnd : (r.map Prod.fst).Nodup) :
    (r.map Prod.fst).map (fun f => objGet r f) = r.map (fun p => some p.2) := by
  induction r with
  | nil => rfl
  | cons p rest ih =>
    obtain ⟨k, v⟩ := p
    simp only [List.map_cons, List.nodup_cons] at hnd
    simp only [List.map_cons]
    rw [objGet_cons_self]
    congr 1
    have hrw : (rest.map Prod.fst).map (fun f => objGet ((k, v) :: rest) f) =
        (rest.map Prod.fst).map (fun f => objGet rest f) := by
      apply List.map_congr_left
      intro f hf
      exact objGet_cons_ne k f v rest (fun he => hnd.1 (he ▸ hf))
    rw [hrw, ih hnd.2]

/-! ## Tokenizer step lemmas -/

theorem scan_nil (inQ qP crP : Bool) (fld : List Char) (rec : List String)
    (acc : List (List String)) :
    scan [] inQ qP crP fld rec acc = acc ++ [rec ++ [String.mk fld]] := rfl

theorem scan_quote_open (rest : List Char) (rec : List String) (acc : List (List String)) :
    scan ('"' :: rest) false false false [] rec acc = scan rest true false false [] rec acc := rfl

theorem scan_inq_quote (rest : List Char) (fld : List Char) (rec : List String)
    (acc : List (List String)) :
    scan ('"' :: rest) true false false fld rec acc = scan rest false true false fld rec acc := rfl

theorem scan_qpend_quote (rest : List Char) (fld : List Char) (rec : List String)
    (acc : List (List String)) :
    scan ('"' :: rest) false true false fld rec acc =
      scan rest true false false (fld ++ ['"']) rec acc := rfl

theorem scan_comma (rest : List Char) (fld : List Char) (rec : List String)
    (acc : List (List String)) :
    scan (',' :: rest) false false false fld rec acc =
      scan rest false false false [] (rec ++ [String.mk fld]) acc := rfl

theorem scan_cr (rest : List Char) (fld : List Char) (rec : List String)
    (acc : List (List String)) :
    scan ('\r' :: rest) false false false fld rec acc =
      scan rest false false true [] [] (acc ++ [rec ++ [String.mk fld]]) := rfl

theorem scan_crpend_lf (rest : List Char) (fld : List Char) (rec : List String)
    (acc : List (List String)) :
    scan ('\n' :: rest) false false true fld rec acc =
      scan rest false false false fld rec acc := rfl

theorem scan_inq_lit (c : Char) (hc : c ≠ '"') (rest : List Char) (fld : List Char)
    (rec : List String) (acc : List (List String)) :
    scan (c :: rest) true false false fld rec acc =
      scan rest true false false (fld ++ [c]) rec acc := by
  simp only [scan, if_true]
  rw [if_neg hc]

theorem scan_other (c : Char) (h1 : c ≠ '"') (h2 : c ≠ ',') (h3 : c ≠ '\r') (h4 : c ≠ '\n')
    (rest : List Char) (fld : List Char) (rec : List String) (acc : List (List String)) :
    scan (c :: rest) false false false fld rec acc =
      scan rest false false false (fld ++ [c]) rec acc := by
  simp only [scan]
  simp [h1, h2, h3, h4]

/-- Once a closing quote is pending, any continuation not starting with a
quote behaves as in the plain unquoted state. -/
theorem qPend_elim (rest : List Char) (fld : List Char) (rec : List String)
    (acc : List (List String)) (h : rest.head? ≠ some '"') :
    scan rest false true false fld rec acc = scan rest false false false fld rec acc := by
  cases rest with
  | nil => rfl
  | cons c r =>
    have hc : c ≠ '"' := by simpa using h
    simp only [scan]
    simp [hc]

/-- Scanning a run of non-special characters appends them to the field. -/
theorem scan_run (s : List Char) (hs : ∀ c ∈ s, c ≠ '"' ∧ c ≠ ',' ∧ c ≠ '\r' ∧ c ≠ '\n')
    (rest : List Char) (fld : List Char) (rec : List String) (acc : List (List String)) :
    scan (s ++ rest) false false false fld rec acc =
      scan rest false false false (fld ++ s) rec acc := by
  induction s generalizing fld with
  | nil => simp
  | cons c t ih =>
    obtain ⟨h1, h2, h3, h4⟩ := hs c (by simp)
    rw [List.cons_append, scan_other c h1 h2 h3 h4,
      ih (fun c₂ hc₂ => hs c₂ (by simp [hc₂]))]
    simp

/-- Scanning an escaped field body inside quotes, followed by the closing
quote, recovers the body and leaves a pending close. -/
theorem scan_quoted (s : List Char) (rest : List Char) (fld : List Char) (rec : List String)
    (acc : List (List String)) :
    scan (Papa.escList s ++ '"' :: rest) true false false fld rec acc =
      scan rest false true false (fld ++ s) rec acc := by
  induction s generalizing fld with
  | nil => simp [Papa.escList, scan_inq_quote]
  | cons c t ih =>
    by_cases hc : c = '"'
    · subst hc
      have hesc : Papa.escList ('"' :: t) = '"' :: '"' :: Papa.escList t := by
        simp [Papa.escList]
      rw [hesc, List.cons_append, List.cons_append, scan_inq_quote, scan_qpend_quote, ih]
      simp
    · simp only [Papa.escList, if_neg hc, List.cons_append]
      rw [scan_inq_lit c hc, ih]
      simp

theorem quoteNeeded_false_spec {s : List Char} (hq : Papa.quoteNeeded s = false) :
    ∀ c ∈ s, c ≠ '"' ∧ c ≠ ',' ∧ c ≠ '\r' ∧ c ≠ '\n' := by
  intro c hc
  simp only [Papa.quoteNeeded, Bool.or_eq_false_iff, decide_eq_false_iff_not] at hq
  obtain ⟨⟨⟨⟨⟨⟨n1, n2⟩, n3⟩, n4⟩, _⟩, _⟩, _⟩ := hq
  exact ⟨fun h => n1 (h ▸ hc), fun h => n2 (h ▸ hc), fun h => n3 (h ▸ hc),
    fun h => n4 (h ▸ hc)⟩

/-- Scanning one serialized field recovers the field content. -/
theorem scan_safeField (s : List Char) (rest : List Char) (h : rest.head? ≠ some '"')
    (rec : List String) (acc : List (List String)) :
    scan (Papa.safeField s ++ rest) false false false [] rec acc =
      scan rest false false false s rec acc := by
  by_cases hq : Papa.quoteNeeded s
  · have hshape : Papa.safeField s ++ rest = '"' :: (Papa.escList s ++ '"' :: rest) := by
      simp [Papa.safeField, hq]
    rw [hshape, scan_quote_open, scan_quoted, qPend_elim _ _ _ _ h]
    simp
  · have hq₂ : Papa.quoteNeeded s = false := by simpa using hq
    have hshape : Papa.safeField s = s := by simp [Papa.safeField, hq₂]
    rw [hshape, scan_run s (quoteNeeded_false_spec hq₂)]
    simp

/-- Scanning one serialized record followed by a CRLF record break emits
exactly that record. -/
theorem scan_line_crlf (r : List String) (hne : r ≠ []) (rest : List Char)
    (rec : List String) (acc : List (List String)) :
    scan (Papa.lineOfRec r ++ '\r' :: '\n' :: rest) false false false [] rec acc =
      scan rest false false false [] [] (acc ++ [rec ++ r]) := by
  induction r generalizing rec with
  | nil => cases hne rfl
  | cons s t ih =>
    cases t with
    | nil =>
      have hline : Papa.lineOfRec [s] = Papa.safeField s.toList :=
        intercalate_single [','] (Papa.safeField s.toList)
      rw [hline, scan_safeField s.toList _ (by simp), scan_cr, scan_crpend_lf,
        strMk_toList]
    | cons s₂ t₂ =>
      have hline : Papa.lineOfRec (s :: s₂ :: t₂) =
          Papa.safeField s.toList ++ ',' :: Papa.lineOfRec (s₂ :: t₂) := by
        simpa using intercalate_cons₂ [','] (Papa.safeField s.toList)
          (Papa.safeField s₂.toList) (t₂.map (fun x => Papa.safeField x.toList))
      rw [hline, List.append_assoc, List.cons_append, scan_safeField s.toList _ (by simp),
        scan_comma, ih (by simp), strMk_toList]
      simp

/-- Scanning one serialized record at the end of input emits exactly that
record. -/
theorem scan_line_eof (r : List String) (hne : r ≠ []) (rec : List String)
    (acc : List (List String)) :
    scan (Papa.lineOfRec r) false false false [] rec acc = acc ++ [rec ++ r] := by
  induction r generalizing rec with
  | nil => cases hne rfl
  | cons s t ih =>
    cases t with
    | nil =>
      have hline : Papa.lineOfRec [s] = Papa.safeField s.toList ++ [] := by
        simpa using intercalate_single [','] (Papa.safeField s.toList)
      rw [hline, scan_safeField s.toList _ (by simp), scan_nil, strMk_toList]
    | cons s₂ t₂ =>
      have hline : Papa.lineOfRec (s :: s₂ :: t₂) =
          Papa.safeField s.toList ++ ',' :: Papa.lineOfRec (s₂ :: t₂) := by
        simpa using intercalate_cons₂ [','] (Papa.safeField s.toList)
          (Papa.safeField s₂.toList) (t₂.map (fun x => Papa.safeField x.toList))
      rw [hline, scan_safeField s.toList _ (by simp), scan_comma, ih (by simp),
        strMk_toList]
      simp

/-- Scanning a full serialized text (records joined by CRLF) recovers exactly
the records. -/
theorem scan_text (ls : List (List String)) (hne : ls ≠ []) (hr : ∀ r ∈ ls, r ≠ [])
    (acc : List (List String)) :
    scan (List.intercalate ['\r', '\n'] (ls.map Papa.lineOfRec)) false false false [] [] acc =
      acc ++ ls := by
  induction ls generalizing acc with
  | nil => cases hne rfl
  | cons r t ih =>
    cases t with
    | nil =>
      simp only [List.map_cons, List.map_nil]
      rw [intercalate_single ['\r', '\n'] (Papa.lineOfRec r),
        scan_line_eof r (hr r (by simp))]
      simp
    | cons r₂ t₂ =>
      have hshape : List.intercalate ['\r', '\n'] ((r :: r₂ :: t₂).map Papa.lineOfRec) =
          Papa.lineOfRec r ++ '\r' :: '\n' ::
            List.intercalate ['\r', '\n'] ((r₂ :: t₂).map Papa.lineOfRec) := by
        simpa using intercalate_cons₂ ['\r', '\n'] (Papa.lineOfRec r)
          (Papa.lineOfRec r₂) (t₂.map Papa.lineOfRec)
      rw [hshape, scan_line_crlf r (hr r (by simp)),
        ih (by simp) (fun x hx => hr x (by simp [hx]))]
      simp

/-! ## Header-row reconstruction lemmas -/

theorem processRowAux_eq_append (fields : List String) (hnd : fields.Nodup) :
    ∀ (cells : List String) (j : Nat) (acc : JsObj),
      acc.map Prod.fst = fields.take j → j + cells.length ≤ fields.length →
      processRowAux fields cells j acc =
        acc ++ ((fields.drop j).zip cells).map (fun p => (p.1, CellVal.str p.2)) := by
  intro cells
  induction cells with
  | nil => intro j acc _ _; simp [processRowAux]
  | cons c t ih =>
    intro j acc hkeys hlen
    have hj : j < fields.length := by simp at hlen; omega
    have hget : fields[j]? = some fields[j] := List.getElem?_eq_getElem hj
    have hmemdrop : fields[j] ∈ List.drop j fields := by
      rw [List.drop_eq_getElem_cons hj]
      exact List.mem_cons_self _ _
    have hnotmem : fields[j] ∉ acc.map Prod.fst := by
      rw [hkeys]
      intro hmem
      have hsplit : (fields.take j ++ fields.drop j).Nodup := by
        rw [List.take_append_drop]; exact hnd
      exact (List.nodup_append.mp hsplit).2.2 hmem hmemdrop
    simp only [processRowAux, hget]
    rw [objSet_of_not_mem acc fields[j] (.str c) hnotmem]
    rw [ih (j + 1) (acc ++ [(fields[j], CellVal.str c)])
      (by rw [List.map_append, hkeys, List.take_succ, hget]; simp)
      (by simp at hlen ⊢; omega)]
    have hdrop : List.drop j fields = fields[j] :: List.drop (j + 1) fields :=
      List.drop_eq_getElem_cons hj
    rw [hdrop, List.zip_cons_cons, List.map_cons]
    simp

/-- With distinct header names and a record no longer than the header,
papaparse's row processing is exactly the field-by-field zip. -/
theorem processRow_eq_zipRow (fields cells : List String) (hnd : fields.Nodup)
    (hlen : cells.length ≤ fields.length) :
    processRow fields cells = zipRow fields cells := by
  unfold processRow zipRow
  rw [processRowAux_eq_append fields hnd cells 0 [] (by simp) (by simpa using hlen)]
  simp

theorem zipRow_self (r : JsObj) (hstr : ∀ p ∈ r, isStrVal p.2 = true) :
    zipRow (r.map Prod.fst) (Papa.rowStrings r) = r := by
  induction r with
  | nil => rfl
  | cons p t ih =>
    obtain ⟨k, v⟩ := p
    have hv := hstr (k, v) (by simp)
    cases v with
    | arr l => simp [isStrVal] at hv
    | str s =>
      have ht := ih (fun q hq => hstr q (by simp [hq]))
      simp only [zipRow, Papa.rowStrings, List.map_cons] at ht ⊢
      rw [List.zip_cons_cons, List.map_cons, ht]
      rfl

theorem rowStrings_length (r : JsObj) : (Papa.rowStrings r).length = r.length := by
  simp [Papa.rowStrings]

theorem zipRow_keys (fields cells : List String) (h : fields.length ≤ cells.length) :
    (zipRow fields cells).map Prod.fst = fields := by
  unfold zipRow
  rw [List.map_map]
  have : (Prod.fst ∘ fun p : String × String => (p.1, CellVal.str p.2)) =
      (Prod.fst : String × String → String) := by
    funext p; rfl
  rw [this, List.map_fst_zip fields cells h]

theorem rowStrings_zipRow (fields cells : List String) (h : cells.length ≤ fields.length) :
    Papa.rowStrings (zipRow fields cells) = cells := by
  unfold zipRow Papa.rowStrings
  rw [List.map_map]
  have : ((fun p : String × CellVal => Papa.strValOf p.2) ∘
      fun p : String × String => (p.1, CellVal.str p.2)) =
      (Prod.snd : String × String → String) := by
    funext p; rfl
  rw [this, List.map_snd_zip fields cells h]

theorem zipRow_isStr (fields cells : List String) :
    ∀ p ∈ zipRow fields cells, isStrVal p.2 = true := by
  intro p hp
  unfold zipRow at hp
  obtain ⟨q, _, rfl⟩ := List.mem_map.mp hp
  rfl

theorem objGet_none_iff (o : JsObj) (k : String) :
    objGet o k = none ↔ k ∉ o.map Prod.fst := by
  induction o with
  | nil => simp [objGet]
  | cons p t ih =>
    obtain ⟨k₀, v₀⟩ := p
    by_cases hk : k₀ = k
    · subst hk
      simp [objGet_cons_self]
    · rw [objGet_cons_ne k₀ k v₀ t hk]
      simp only [List.map_cons, List.mem_cons, not_or]
      constructor
      · intro h; exact ⟨fun he => hk he.symm, ih.mp h⟩
      · intro h; exact ih.mpr h.2

/-! ## The codec round trip -/

theorem rowLine_eq (r : JsObj) (hnd : (r.map Prod.fst).Nodup) :
    (r.map Prod.fst).map (fun f => Papa.safeVal (objGet r f)) =
      (Papa.rowStrings r).map (fun s => Papa.safeField s.toList) := by
  have h1 : (r.map Prod.fst).map (fun f => Papa.safeVal (objGet r f)) =
      ((r.map Prod.fst).map (fun f => objGet r f)).map Papa.safeVal := by
    conv_rhs => rw [List.map_map]
    rfl
  rw [h1, map_objGet_self r hnd]
  simp only [Papa.rowStrings, List.map_map]
  rfl

/-- The serialized text of a non-empty well-keyed data array, line by line. -/
theorem unparse_eq_lines (rows : List JsObj) (fields : List String)
    (hrows : rows ≠ []) (hnd : fields.Nodup)
    (hkeys : ∀ r ∈ rows, r.map Prod.fst = fields) :
    Papa.unparse rows = String.mk (List.intercalate ['\r', '\n']
      ((fields :: rows.map Papa.rowStrings).map Papa.lineOfRec)) := by
  obtain ⟨r₀, rest, rfl⟩ : ∃ a t, rows = a :: t := by
    cases rows with
    | nil => cases hrows rfl
    | cons a t => exact ⟨a, t, rfl⟩
  have hf : r₀.map Prod.fst = fields := hkeys r₀ (by simp)
  have hper : ∀ r ∈ r₀ :: rest,
      List.intercalate [','] (fields.map (fun f => Papa.safeVal (objGet r f))) =
        Papa.lineOfRec (Papa.rowStrings r) := by
    intro r hr
    have hkr : r.map Prod.fst = fields := hkeys r hr
    have hl := rowLine_eq r (by rw [hkr]; exact hnd)
    rw [hkr] at hl
    unfold Papa.lineOfRec
    rw [hl]
  simp only [Papa.unparse, hf]
  congr 2
  simp only [List.map_cons, List.map_map]
  rw [hper r₀ (by simp),
    List.map_congr_left (fun r hr => hper r (List.mem_cons_of_mem _ hr))]
  rfl

/-- Core round trip: parsing the serialized form of a well-formed table
(non-empty distinct columns, at least one row, each row mapping exactly the
columns to string values, no record being a single empty cell) reproduces the
columns and the rows exactly. -/
theorem parse_unparse (fields : List String) (rows : List JsObj)
    (hne : fields ≠ []) (hnd : fields.Nodup) (hrows : rows ≠ [])
    (hkeys : ∀ r ∈ rows, r.map Prod.fst = fields)
    (hstr : ∀ r ∈ rows, ∀ p ∈ r, isStrVal p.2 = true)
    (hfe : fields ≠ [""])
    (hre : ∀ r ∈ rows, Papa.rowStrings r ≠ [""]) :
    Papa.parse (Papa.unparse rows) = ⟨some fields, rows⟩ := by
  have hlines := unparse_eq_lines rows fields hrows hnd hkeys
  have hscan : scan (Papa.unparse rows).toList false false false [] [] [] =
      fields :: rows.map Papa.rowStrings := by
    rw [hlines]
    rw [show (String.mk (List.intercalate ['\r', '\n']
        ((fields :: rows.map Papa.rowStrings).map Papa.lineOfRec))).toList =
      List.intercalate ['\r', '\n']
        ((fields :: rows.map Papa.rowStrings).map Papa.lineOfRec) from rfl]
    rw [scan_text _ (by simp) ?hr []]
    · simp
    case hr =>
      intro r hrmem
      rcases List.mem_cons.mp hrmem with h | h
      · exact h ▸ hne
      · obtain ⟨r₁, hr₁, rfl⟩ := List.mem_map.mp h
        intro hnil
        have hlen₀ := rowStrings_length r₁
        rw [hnil] at hlen₀
        have hr₁nil : r₁ = [] := List.length_eq_zero.mp hlen₀.symm
        have hk := hkeys r₁ hr₁
        rw [hr₁nil] at hk
        exact hne hk.symm
  have hrecords : recordsOf (Papa.unparse rows) = fields :: rows.map Papa.rowStrings := by
    unfold recordsOf
    rw [hscan, List.filter_eq_self.mpr]
    intro a ha
    rcases List.mem_cons.mp ha with h | h
    · subst h; simpa using hfe
    · obtain ⟨r₁, hr₁, rfl⟩ := List.mem_map.mp h
      simpa using hre r₁ hr₁
  have hdata : (rows.map Papa.rowStrings).map (processRow fields) = rows := by
    rw [List.map_map]
    have hper : ∀ r ∈ rows, (processRow fields ∘ Papa.rowStrings) r = id r := by
      intro r hr
      have hkr := hkeys r hr
      have hlen : (Papa.rowStrings r).length ≤ fields.length := by
        rw [rowStrings_length, ← hkr, List.length_map]
      simp only [Function.comp, id]
      rw [processRow_eq_zipRow fields (Papa.rowStrings r) hnd hlen, ← hkr,
        zipRow_self r (hstr r hr)]
    rw [List.map_congr_left hper, List.map_id]
  simp only [Papa.parse, hrecords]
  rw [hdata]

/-! ## Claim C1 -/

/-- C1 counterexample: the round-trip claim fails for the input text
`"a,b\n"` (header only, no data rows).  The view parses it to columns
`["a","b"]` with no rows, but `getViewData` returns `""` because
`Papa.unparse` receives only the data array and derives the columns from the
first row object — so the serialized output does not reproduce the column
sequence (parsing it back yields no columns at all). -/
theorem claim1_counterexample :
    Papa.parse "a,b\n" = ⟨some ["a", "b"], []⟩ ∧
    getViewData (setViewData freshView "a,b\n") = "" ∧
    Papa.parse (getViewData (setViewData freshView "a,b\n")) = ⟨none, []⟩ ∧
    (some ["a", "b"] : Option (List String)) ≠ none := by
  refine ⟨by decide, by decide, by decide, by decide⟩

/-- C1 (amended): for every table whose columns are non-empty, duplicate-free
and not the single empty name, whose data has at least one row, each row
mapping exactly the column sequence to plain string values, and no row being
a single empty cell, parsing the serialized form reproduces the column
sequence and every row's field-value mapping exactly.  (For a rowless table
the columns are lost — serialization derives them from the first row object —
and a record serializing to an empty line is eaten by `skipEmptyLines`.) -/
theorem claim1_roundtrip_amended (fields : List String) (rows : List JsObj)
    (hne : fields ≠ []) (hnd : fields.Nodup) (hrows : rows ≠ [])
    (hkeys : ∀ r ∈ rows, r.map Prod.fst = fields)
    (hstr : ∀ r ∈ rows, ∀ p ∈ r, isStrVal p.2 = true)
    (hfe : fields ≠ [""]) (hre : ∀ r ∈ rows, Papa.rowStrings r ≠ [""]) :
    (Papa.parse (Papa.unparse rows)).fields = some fields ∧
    (Papa.parse (Papa.unparse rows)).data = rows := by
  have h := parse_unparse fields rows hne hnd hrows hkeys hstr hfe hre
  exact ⟨by rw [h], by rw [h]⟩

theorem claim1_roundtrip_witness :
    (Papa.parse (Papa.unparse [[("a", CellVal.str "1"), ("b", CellVal.str "2")],
      [("a", CellVal.str "3"), ("b", CellVal.str "4")]])).fields = some ["a", "b"] ∧
    (Papa.parse (Papa.unparse [[("a", CellVal.str "1"), ("b", CellVal.str "2")],
      [("a", CellVal.str "3"), ("b", CellVal.str "4")]])).data =
      [[("a", CellVal.str "1"), ("b", CellVal.str "2")],
        [("a", CellVal.str "3"), ("b", CellVal.str "4")]] :=
  claim1_roundtrip_amended ["a", "b"]
    [[("a", CellVal.str "1"), ("b", CellVal.str "2")],
      [("a", CellVal.str "3"), ("b", CellVal.str "4")]]
    (by decide) (by decide) (by decide) (by decide) (by decide) (by decide) (by decide)

/-! ## Claim C5 -/

/-- C5: committing a cell edit whose buffer value equals the table's current
value for that cell is a no-op: the data is unchanged, the serialized output
is unchanged, `requestSave` is not called, and the markdown projection is not
re-rendered. -/
theorem claim5_unchanged_commit_noop (data : List JsObj) (i : Nat) (f v : String)
    (row : JsObj) (hrow : data[i]? = some row)
    (hval : objGet row f = some (CellVal.str v)) :
    commitCellEdit data i f v = ⟨data, false, false⟩ ∧
    Papa.unparse (commitCellEdit data i f v).data = Papa.unparse data := by
  have hne : jsStrictNe (objGet row f) v = false := by
    rw [hval]; simp [jsStrictNe]
  have h : commitCellEdit data i f v = ⟨data, false, false⟩ := by
    unfold commitCellEdit
    rw [hrow]
    simp [hne]
  exact ⟨h, by rw [h]⟩

theorem claim5_witness :
    commitCellEdit [[("a", CellVal.str "1"), ("b", CellVal.str "2")]] 0 "a" "1" =
      ⟨[[("a", CellVal.str "1"), ("b", CellVal.str "2")]], false, false⟩ :=
  (claim5_unchanged_commit_noop [[("a", CellVal.str "1"), ("b", CellVal.str "2")]] 0 "a" "1"
    [("a", CellVal.str "1"), ("b", CellVal.str "2")] (by decide) (by decide)).1

/-! ## Claim C9 -/

/-- C9: starting from the table parsed from `"a,b\n1,2\n3,4\n"`, committing
the value `"9"` into row 0, field `"a"` and serializing yields row 0
`{a:"9", b:"2"}` with row 1 and the rest of row 0 unchanged. -/
theorem claim9_edit_frame :
    (commitCellEdit (Papa.parse "a,b\n1,2\n3,4\n").data 0 "a" "9").data =
      [[("a", CellVal.str "9"), ("b", CellVal.str "2")],
        [("a", CellVal.str "3"), ("b", CellVal.str "4")]] ∧
    (commitCellEdit (Papa.parse "a,b\n1,2\n3,4\n").data 0 "a" "9").data[1]? =
      (Papa.parse "a,b\n1,2\n3,4\n").data[1]? ∧
    objGet ((commitCellEdit (Papa.parse "a,b\n1,2\n3,4\n").data 0 "a" "9").data[0]?.getD [])
        "b" =
      objGet ((Papa.parse "a,b\n1,2\n3,4\n").data[0]?.getD []) "b" ∧
    Papa.unparse (commitCellEdit (Papa.parse "a,b\n1,2\n3,4\n").data 0 "a" "9").data =
      "a,b\r\n9,2\r\n3,4" := by
  refine ⟨by decide, by decide, by decide, by decide⟩

/-! ## Claim C10 -/

/-- C10: a blur-commit whose captured row index has no entry in the parsed
data leaves the data unchanged, does not call `requestSave`, does not
re-render, and does not raise any error — a silent no-op. -/
theorem claim10_invalid_row_noop (data : List JsObj) (i : Nat) (f v : String)
    (h : data[i]? = none) :
    commitCellEdit data i f v = ⟨data, false, false⟩ := by
  unfold commitCellEdit
  rw [h]

theorem claim10_witness :
    commitCellEdit [[("a", CellVal.str "1"), ("b", CellVal.str "2")]] 5 "a" "9" =
      ⟨[[("a", CellVal.str "1"), ("b", CellVal.str "2")]], false, false⟩ :=
  claim10_invalid_row_noop [[("a", CellVal.str "1"), ("b", CellVal.str "2")]] 5 "a" "9"
    (by decide)

/-! ## Claim C2 -/

/-- C2: evaluation of the draft-row blur handler at the failing input.  The
source's `isRowFilledOut` — documented in the source as "Check if all cells
in the row have content" — returns `true` as soon as ANY cell is non-blank,
so a draft row with only 1 of 2 fields filled DOES commit on blur: the
partial row `{a:"1", b:""}` is inserted at position 0 and `requestSave`
fires, contradicting the all-or-nothing policy.  (A fully-filled draft row
also commits exactly one row at position 0, per the third conjunct.) -/
theorem claim2_partial_commit_eval :
    isRowFilledOut ["1", ""] = true ∧
    draftRowBlur ["a", "b"] ["1", ""] "1"
        [[("a", CellVal.str "3"), ("b", CellVal.str "4")]] =
      ([[("a", CellVal.str "1"), ("b", CellVal.str "")],
        [("a", CellVal.str "3"), ("b", CellVal.str "4")]], true) ∧
    draftRowBlur ["a", "b"] ["1", "2"] "2"
        [[("a", CellVal.str "3"), ("b", CellVal.str "4")]] =
      ([[("a", CellVal.str "1"), ("b", CellVal.str "2")],
        [("a", CellVal.str "3"), ("b", CellVal.str "4")]], true) := by
  refine ⟨by decide, by decide, by decide⟩

/-! ## Claim C3 -/

/-- C3 counterexample: immediately after the draft row's first cell gains
focus (on a one-column table with one data row), the grid holds TWO empty
draft rows, and the spawned one is appended BELOW the data rows — refuting
"at all times exactly one empty draft row, positioned at the top". -/
theorem claim3_counterexample :
    draftFocusHandler (initialGrid ["a"] [[("a", CellVal.str "1")]]) ["a"] =
      [.draftRow [""], .dataRow [("a", CellVal.str "1")], .draftRow [""]] ∧
    (draftFocusHandler (initialGrid ["a"] [[("a", CellVal.str "1")]]) ["a"]).countP
      isDraft = 2 ∧
    (draftFocusHandler (initialGrid ["a"] [[("a", CellVal.str "1")]]) ["a"]).countP
      isDraft ≠ 1 ∧
    (draftFocusHandler (initialGrid ["a"] [[("a", CellVal.str "1")]]) ["a"])[2]? =
      some (.draftRow [""]) := by
  refine ⟨by decide, by decide, by decide, by decide⟩

/-- C3 (amended): the freshly rendered grid has exactly one empty draft row,
at the top above the data rows; when the draft row's first cell gains focus
while it is the only draft row, a second blank draft row is spawned and
APPENDED AT THE BOTTOM of the grid (below the data rows), so exactly two
draft rows exist during editing; after the original draft row commits (it is
converted in place to a data row), exactly one empty draft row remains,
positioned at the bottom of the grid rather than the top. -/
theorem claim3_amended (fields : List String) (data : List JsObj) (obj : JsObj) :
    (initialGrid fields data).countP isDraft = 1 ∧
    (initialGrid fields data).head? = some (blankDraft fields) ∧
    (draftFocusHandler (initialGrid fields data) fields).countP isDraft = 2 ∧
    (draftFocusHandler (initialGrid fields data) fields).getLast? =
      some (blankDraft fields) ∧
    (commitDraftInGrid (draftFocusHandler (initialGrid fields data) fields) obj).countP
      isDraft = 1 ∧
    (commitDraftInGrid (draftFocusHandler (initialGrid fields data) fields) obj).getLast? =
      some (blankDraft fields) := by
  have hzero : (data.map GridRow.dataRow).countP isDraft = 0 := by
    rw [List.countP_eq_zero]
    intro a ha
    obtain ⟨r, _, rfl⟩ := List.mem_map.mp ha
    simp [isDraft]
  have hone : (initialGrid fields data).countP isDraft = 1 := by
    unfold initialGrid blankDraft
    rw [List.countP_cons]
    simp [isDraft, hzero]
  have hfocus : draftFocusHandler (initialGrid fields data) fields =
      initialGrid fields data ++ [blankDraft fields] := by
    unfold draftFocusHandler addNewEmptyRow
    rw [if_pos hone]
  have hcommit : commitDraftInGrid (draftFocusHandler (initialGrid fields data) fields)
      obj = GridRow.dataRow obj :: (data.map GridRow.dataRow ++ [blankDraft fields]) := by
    rw [hfocus]
    unfold initialGrid blankDraft commitDraftInGrid
    simp
  refine ⟨hone, by unfold initialGrid; simp, ?f2, ?f3, ?f4, ?f5⟩
  case f2 =>
    rw [hfocus, List.countP_append, hone]
    simp [blankDraft, isDraft]
  case f3 =>
    rw [hfocus, List.getLast?_concat]
  case f4 =>
    rw [hcommit, List.countP_cons, List.countP_append]
    simp [blankDraft, isDraft, hzero]
  case f5 =>
    rw [hcommit, ← List.cons_append, List.getLast?_concat]

/-! ## Claim C4 -/

/-- C4 counterexample: a drag-move requesting width `100 + (130 - 200) = 30`
(< 50) leaves every width at its previous value (here 100); it does NOT apply
a width of exactly 50 as the claim states. -/
theorem claim4_counterexample :
    resizeMove 100 200 130 [100, 100, 100] = [100, 100, 100] ∧
    (100 : Int) + (130 - 200) < 50 ∧
    resizeMove 100 200 130 [100, 100, 100] ≠ [50, 50, 50] := by
  refine ⟨by decide, by decide, by decide⟩

/-- C4 (amended): a drag-move computing `newWidth = startWidth + (currentX -
startX) < 50` is ignored — all widths (header and body) stay exactly as they
were, they are not clamped to 50; a move with `newWidth ≥ 50` applies exactly
`newWidth` identically to the header cell and every body cell in the column. -/
theorem claim4_amended (startWidth startX pageX : Int) (ws : List Int) :
    (startWidth + (pageX - startX) < 50 →
      resizeMove startWidth startX pageX ws = ws) ∧
    (50 ≤ startWidth + (pageX - startX) →
      ∀ w ∈ resizeMove startWidth startX pageX ws,
        w = startWidth + (pageX - startX)) := by
  constructor
  · intro h
    unfold resizeMove
    rw [if_neg (by omega)]
  · intro h w hw
    unfold resizeMove at hw
    rw [if_pos h] at hw
    obtain ⟨_, _, rfl⟩ := List.mem_map.mp hw
    rfl

theorem claim4_witness :
    resizeMove 100 200 130 [100, 80] = [100, 80] ∧
    (∀ w ∈ resizeMove 100 0 60 [100, 80], w = 160) :=
  ⟨(claim4_amended 100 200 130 [100, 80]).1 (by decide),
    fun w hw => ((claim4_amended 100 0 60 [100, 80]).2 (by decide) w hw).trans (by decide)⟩

/-! ## Claim C6 -/

/-- C6 counterexample: the source has no error-raising `setCellValue`.  Its
cell-update path is the blur-commit handler.  At an invalid row index (5 on a
2-row table) the spec-side operation fails with `OutOfRangeError`, but the
code silently does nothing (no error value, data unchanged, no
`requestSave`); at an unknown field the spec-side operation fails with
`UnknownFieldError`, but the code silently ADDS the field to the row object
and marks the table dirty. -/
theorem claim6_counterexample :
    setCellValueSpec ["a", "b"]
        [[("a", CellVal.str "1"), ("b", CellVal.str "2")],
          [("a", CellVal.str "3"), ("b", CellVal.str "4")]] 5 "a" "9" =
      .error .outOfRange ∧
    commitCellEdit
        [[("a", CellVal.str "1"), ("b", CellVal.str "2")],
          [("a", CellVal.str "3"), ("b", CellVal.str "4")]] 5 "a" "9" =
      ⟨[[("a", CellVal.str "1"), ("b", CellVal.str "2")],
          [("a", CellVal.str "3"), ("b", CellVal.str "4")]], false, false⟩ ∧
    setCellValueSpec ["a", "b"] [[("a", CellVal.str "1"), ("b", CellVal.str "2")]]
        0 "zz" "9" = .error .unknownField ∧
    commitCellEdit [[("a", CellVal.str "1"), ("b", CellVal.str "2")]] 0 "zz" "9" =
      ⟨[[("a", CellVal.str "1"), ("b", CellVal.str "2"), ("zz", CellVal.str "9")]],
        true, true⟩ := by
  refine ⟨by decide, by decide, by decide, by decide⟩

/-- C6 (amended): the cell-update path never fails: an invalid row index is a
silent no-op (no error, no mutation, no dirty-mark); an unknown field is
silently appended to the row object, overwriting nothing, and the table is
marked dirty; a known field with a differing value is overwritten in place
and the table is marked dirty; a known field with an unchanged value is a
no-op. -/
theorem claim6_amended (data : List JsObj) (i : Nat) (f v : String) :
    (data[i]? = none → commitCellEdit data i f v = ⟨data, false, false⟩) ∧
    (∀ row, data[i]? = some row → objGet row f = none →
      commitCellEdit data i f v =
        ⟨data.set i (row ++ [(f, CellVal.str v)]), true, true⟩) ∧
    (∀ row s, data[i]? = some row → objGet row f = some (CellVal.str s) → s ≠ v →
      commitCellEdit data i f v =
        ⟨data.set i (objSet row f (CellVal.str v)), true, true⟩) ∧
    (∀ row, data[i]? = some row → objGet row f = some (CellVal.str v) →
      commitCellEdit data i f v = ⟨data, false, false⟩) := by
  refine ⟨?c1, ?c2, ?c3, ?c4⟩
  case c1 =>
    intro h
    unfold commitCellEdit
    rw [h]
  case c2 =>
    intro row hrow hnone
    have hne : jsStrictNe (objGet row f) v = true := by rw [hnone]; rfl
    unfold commitCellEdit
    rw [hrow]
    simp only [hne, if_true]
    rw [objSet_of_not_mem row f (CellVal.str v) ((objGet_none_iff row f).mp hnone)]
  case c3 =>
    intro row s hrow hval hsv
    have hne : jsStrictNe (objGet row f) v = true := by
      rw [hval]
      simpa [jsStrictNe] using hsv
    unfold commitCellEdit
    rw [hrow]
    simp only [hne, if_true]
  case c4 =>
    intro row hrow hval
    have hne : jsStrictNe (objGet row f) v = false := by
      rw [hval]
      simp [jsStrictNe]
    unfold commitCellEdit
    rw [hrow]
    simp [hne]

theorem claim6_witness :
    commitCellEdit [[("a", CellVal.str "1")]] 3 "a" "9" =
      ⟨[[("a", CellVal.str "1")]], false, false⟩ ∧
    commitCellEdit [[("a", CellVal.str "1")]] 0 "b" "9" =
      ⟨[[("a", CellVal.str "1"), ("b", CellVal.str "9")]], true, true⟩ ∧
    commitCellEdit [[("a", CellVal.str "1")]] 0 "a" "9" =
      ⟨[[("a", CellVal.str "9")]], true, true⟩ ∧
    commitCellEdit [[("a", CellVal.str "1")]] 0 "a" "1" =
      ⟨[[("a", CellVal.str "1")]], false, false⟩ :=
  ⟨(claim6_amended [[("a", CellVal.str "1")]] 3 "a" "9").1 (by decide),
    ((claim6_amended [[("a", CellVal.str "1")]] 0 "b" "9").2.1 [("a", CellVal.str "1")]
      (by decide) (by decide)).trans (by decide),
    ((claim6_amended [[("a", CellVal.str "1")]] 0 "a" "9").2.2.1 [("a", CellVal.str "1")]
      "1" (by decide) (by decide) (by decide)).trans (by decide),
    (claim6_amended [[("a", CellVal.str "1")]] 0 "a" "1").2.2.2 [("a", CellVal.str "1")]
      (by decide) (by decide)⟩

/-! ## Claim C7 -/

/-- Text-direction round trip: for an input whose parse yields a non-empty
duplicate-free header, at least one data record, and only records matching
the header's cell count, re-parsing the serialized view data reproduces the
parse of the input. -/
theorem parse_text_roundtrip (text : String) (f : List String)
    (rest : List (List String)) (hrec : recordsOf text = f :: rest) (hne : f ≠ [])
    (hnd : f.Nodup) (hrest : rest ≠ []) (hlen : ∀ r ∈ rest, r.length = f.length) :
    Papa.parse (Papa.unparse (Papa.parse text).data) = Papa.parse text := by
  have hparse : Papa.parse text = ⟨some f, rest.map (processRow f)⟩ := by
    unfold Papa.parse
    rw [hrec]
  have hproc : rest.map (processRow f) = rest.map (zipRow f) :=
    List.map_congr_left fun r hr => processRow_eq_zipRow f r hnd (le_of_eq (hlen r hr))
  have hmemrec : ∀ r ∈ f :: rest, r ≠ [""] := by
    intro r hr
    have hmem : r ∈ recordsOf text := hrec ▸ hr
    unfold recordsOf at hmem
    have := (List.mem_filter.mp hmem).2
    simpa using this
  have happ := parse_unparse f (rest.map (zipRow f)) hne hnd
    (fun h => hrest (by simpa using h))
    (fun r hr => by
      obtain ⟨c, hc, rfl⟩ := List.mem_map.mp hr
      exact zipRow_keys f c (le_of_eq (hlen c hc).symm))
    (fun r hr => by
      obtain ⟨c, hc, rfl⟩ := List.mem_map.mp hr
      exact zipRow_isStr f c)
    (hmemrec f (by simp))
    (fun r hr => by
      obtain ⟨c, hc, rfl⟩ := List.mem_map.mp hr
      rw [rowStrings_zipRow f c (le_of_eq (hlen c hc))]
      exact hmemrec c (by simp [hc]))
  rw [hparse]
  simp only
  rw [hproc, happ]

/-- C7 (amended): serializing a table with no rows yields the empty string
regardless of its columns (the header is NOT emitted, because serialization
derives the columns from the first row object); a fresh view with no document
yields the empty string; and before any edits, for an input whose parse has a
non-empty duplicate-free header, at least one data record, and only records
matching the header's cell count, the serialized output is semantically equal
to the input (it parses back to the same columns and rows). -/
theorem claim7_amended :
    (∀ r : ParseResult, r.data = [] → getViewData ⟨some r⟩ = "") ∧
    getViewData freshView = "" ∧
    (∀ text f rest, recordsOf text = f :: rest → f ≠ [] → f.Nodup → rest ≠ [] →
      (∀ r ∈ rest, r.length = f.length) →
      Papa.parse (getViewData (setViewData freshView text)) = Papa.parse text) := by
  refine ⟨?e1, rfl, ?e3⟩
  case e1 =>
    intro r hr
    show Papa.unparse r.data = ""
    rw [hr]
    rfl
  case e3 =>
    intro text f rest hrec hne hnd hrest hlen
    exact parse_text_roundtrip text f rest hrec hne hnd hrest hlen

/-- C7 counterexample: for the header-only input `"a,b\n"` the parse has
columns `["a","b"]` and no rows, yet `getViewData` returns the empty string
rather than the header line `"a,b"`. -/
theorem claim7_counterexample :
    (Papa.parse "a,b\n").fields = some ["a", "b"] ∧
    (Papa.parse "a,b\n").data = [] ∧
    getViewData (setViewData freshView "a,b\n") = "" ∧
    ("" : String) ≠ "a,b" := by
  refine ⟨by decide, by decide, by decide, by decide⟩

theorem claim7_witness :
    getViewData ⟨some ⟨some ["a", "b"], []⟩⟩ = "" ∧
    Papa.parse (getViewData (setViewData freshView "a,b\n1,2\n")) =
      Papa.parse "a,b\n1,2\n" :=
  ⟨claim7_amended.1 ⟨some ["a", "b"], []⟩ rfl,
    claim7_amended.2.2 "a,b\n1,2\n" ["a", "b"] [["1", "2"]] (by decide) (by decide)
      (by decide) (by decide) (by decide)⟩

/-! ## Claim C8 -/

/-- C8 counterexample: parsing `"a,b\n1\n3,4\n"` — whose second record has
only 1 cell against a 2-field header — RETAINS the mismatched record as the
row `{a:"1"}` (field `b` absent): the data has 2 rows, not 1 as the "row
dropped" policy would give.  An over-long record is also retained, its extra
cell collected under `__parsed_extra`. -/
theorem claim8_counterexample :
    (Papa.parse "a,b\n1\n3,4\n").data =
      [[("a", CellVal.str "1")], [("a", CellVal.str "3"), ("b", CellVal.str "4")]] ∧
    (Papa.parse "a,b\n1\n3,4\n").data.length ≠ 1 ∧
    (Papa.parse "a\n1,2\n").data =
      [[("a", CellVal.str "1"), ("__parsed_extra", CellVal.arr ["2"])]] := by
  refine ⟨by decide, by decide, by decide⟩

/-- C8 (amended): parsing skips empty lines and never aborts; EVERY retained
record past the header yields a row — records whose cell count disagrees with
the header are kept (missing fields absent from the row object, extra cells
under `__parsed_extra`), not dropped; records matching a duplicate-free
header yield exactly the field-by-field row mapping. -/
theorem claim8_amended (text : String) (f : List String) (rest : List (List String))
    (hrec : recordsOf text = f :: rest) :
    [""] ∉ recordsOf text ∧
    (Papa.parse text).fields = some f ∧
    (Papa.parse text).data.length = rest.length ∧
    (∀ (i : Nat) (r : List String), rest[i]? = some r →
      (Papa.parse text).data[i]? = some (processRow f r)) ∧
    (f.Nodup → ∀ (i : Nat) (r : List String), rest[i]? = some r → r.length ≤ f.length →
      (Papa.parse text).data[i]? = some (zipRow f r)) := by
  have hparse : Papa.parse text = ⟨some f, rest.map (processRow f)⟩ := by
    unfold Papa.parse
    rw [hrec]
  refine ⟨?skip, by rw [hparse], by rw [hparse]; simp, ?proc, ?zip⟩
  case skip =>
    unfold recordsOf
    intro hmem
    have := (List.mem_filter.mp hmem).2
    simp at this
  case proc =>
    intro i r hi
    rw [hparse]
    simp [List.getElem?_map, hi]
  case zip =>
    intro hnd i r hi hlen
    rw [hparse]
    simp [List.getElem?_map, hi, processRow_eq_zipRow f r hnd hlen]

theorem claim8_witness :
    (Papa.parse "a,b\n1\n3,4\n").data.length = 2 ∧
    (Papa.parse "a,b\n1\n3,4\n").data[0]? = some (processRow ["a", "b"] ["1"]) ∧
    (Papa.parse "a,b\n1\n3,4\n").data[1]? = some (zipRow ["a", "b"] ["3", "4"]) := by
  have h := claim8_amended "a,b\n1\n3,4\n" ["a", "b"] [["1"], ["3", "4"]] (by decide)
  exact ⟨h.2.2.1, h.2.2.2.1 0 ["1"] (by decide),
    h.2.2.2.2 (by decide) 1 ["3", "4"] (by decide) (by decide)⟩
